import Mathlib

/-!
Shallow embedding of the `btezhu/prolog` repository (files `term_fact_rule.py`,
`parser.py`, `prolog.py`).

Python's mutable global registries (`Term.all_terms`, `Fact.all_facts`,
`Rule.all_rules`) are modelled by explicit state values that are threaded
through the functions.  Python exceptions (`assert` failures) are modelled by
`Except Err`.  Unbounded recursion in the resolution engine and in the
recursive-descent parser is modelled with an explicit fuel parameter; running
out of fuel yields the distinguished error `Err.outOfFuel`, which corresponds
to no behaviour of the source (theorems hold for every fuel value, and
witnesses pick a fuel large enough for the computation to finish).
All strings appearing in the claims are ASCII, for which Lean's
`Char.isAlpha` / `isLower` / `isUpper` / `isWhitespace` agree with Python's
`str.isalpha` / `islower` / `isupper` / `isspace`.
-/

deriving instance DecidableEq for Except

namespace Prolog

/-- Error taxonomy of the source (spec section 7).  Each `assert` in the
Python code is mapped to the corresponding error: unknown characters in the
lexer to `lexError`, `Lexer.expect` failures to `unexpectedToken`, the
cross-namespace assert in `Term.__init__` to `nameKindConflict`, the
repeated-name assert in `matches` to `unsupportedPattern`, the variable-fact
and rule-construction asserts to `invalidStatement`, and the remaining
internal asserts to `assertFailed`.  `outOfFuel` is an artefact of the
embedding (see the header comment). -/
inductive Err where
  | lexError
  | unexpectedToken
  | nameKindConflict
  | unsupportedPattern
  | invalidStatement
  | assertFailed
  | outOfFuel
deriving Repr, DecidableEq

/-- The `TermType` enum from `term_fact_rule.py` (kinds Var / Rule / Atom). -/
inductive TermType where
  | Var
  | Rule
  | Atom
deriving Repr, DecidableEq

/-- The members of the `TermType` enum, as iterated by
`for term_type in Term.all_terms` in `Term.__init__`. -/
def TermType.all : List TermType := [TermType.Var, TermType.Rule, TermType.Atom]

/-- A `Term` is name plus kind.  Python interning guarantees one instance per
name; here a term is identified with its (name, kind) pair, so "the same
interned instance" is modelled as equality of `Term` values. -/
structure Term where
  name : String
  type : TermType
deriving Repr, DecidableEq

/-- Python `Term.__eq__` from the source: terms compare by name only. -/
def Term.eq (a b : Term) : Bool := a.name == b.name

/-- The state of `Term.all_terms`: for each kind, the list of registered
names in registration order (Python dicts preserve insertion order). -/
structure Registry where
  vars : List String
  rules : List String
  atoms : List String
deriving Repr, DecidableEq

def Registry.empty : Registry := ⟨[], [], []⟩

/-- The dictionary `Term.all_terms[ty]`, as the list of registered names in order. -/
def Registry.names (r : Registry) : TermType → List String
  | TermType.Var => r.vars
  | TermType.Rule => r.rules
  | TermType.Atom => r.atoms

def Registry.add (r : Registry) : TermType → String → Registry
  | TermType.Var, n => { r with vars := r.vars ++ [n] }
  | TermType.Rule, n => { r with rules := r.rules ++ [n] }
  | TermType.Atom, n => { r with atoms := r.atoms ++ [n] }

/-- Python `Term._term` composed with `Term.__init__`: if the name is already
registered under `ty`, the existing interned term is returned and the
registry is unchanged; otherwise `Term.__init__` runs, whose loop asserts
that the name is not registered under any kind (the `nameKindConflict`
error) before appending it to `all_terms[ty]`. -/
def Term.term (r : Registry) (name : String) (ty : TermType) :
    Except Err (Registry × Term) :=
  if (r.names ty).contains name then
    .ok (r, ⟨name, ty⟩)
  else if TermType.all.any (fun t => (r.names t).contains name) then
    .error .nameKindConflict
  else
    .ok (r.add ty name, ⟨name, ty⟩)

/-- First character test used by `Term.atom` / `Term.rule`
(`name[0].islower()`). -/
def headIsLower (s : String) : Bool := (s.data.headD ' ').isLower

/-- First character test used by `Term.variable` and
`parse_atom_or_variable` (`name[0].isupper()`). -/
def headIsUpper (s : String) : Bool := (s.data.headD ' ').isUpper

/-- The `ExprType` enum from the source. -/
inductive ExprType where
  | And
  | Or
deriving Repr, DecidableEq

/-- The union type `ExprOrFact = Expr | Fact` of the source.  A Python
`Fact(rule, arguments)` is `.fact ⟨rule, arguments⟩`; a Python
`Expr(arg1, arg2, type)` is `.expr arg1 arg2 type`.  The derived
`is_variable` dataclass fields are represented by the functions below (they
are set once in `__post_init__` from the other fields and never mutated). -/
inductive ExprOrFact where
  | fact (rule : Term) (arguments : List Term)
  | expr (arg1 arg2 : ExprOrFact) (type : ExprType)
deriving Repr, DecidableEq

/-- A bare `Fact` (predicate plus argument list). -/
structure Fact where
  rule : Term
  arguments : List Term
deriving Repr, DecidableEq

def Fact.toEOF (f : Fact) : ExprOrFact := .fact f.rule f.arguments

/-- Python `Fact.is_variable`, set in `Fact.__post_init__`: true iff some argument
is a Variable. -/
def Fact.is_variable (f : Fact) : Bool :=
  f.arguments.any (fun t => t.type == TermType.Var)

/-- Python `is_variable` for the union type (for `Expr` it propagates from the two
operands, per `Expr.__post_init__`). -/
def ExprOrFact.is_variable : ExprOrFact → Bool
  | .fact _ args => args.any (fun t => t.type == TermType.Var)
  | .expr a b _ => a.is_variable || b.is_variable

/-- The asserts of `Fact.__post_init__`: the predicate term must have kind
Rule and every argument must be a Var or an Atom.  (`adding` is always
`False` on the paths modelled here, so no insertion happens at
construction.) -/
def Fact.make (r : Term) (args : List Term) : Except Err Fact :=
  if r.type == TermType.Rule
      && args.all (fun a => a.type == TermType.Var || a.type == TermType.Atom) then
    .ok ⟨r, args⟩
  else
    .error .assertFailed

/-- A `Rule` value (head fact plus body). -/
structure Rule where
  fact : Fact
  body : ExprOrFact
deriving Repr, DecidableEq

/-- The asserts of `Rule.__post_init__`: head and body must each contain at
least one variable (`assert self.fact.is_variable` and
`assert self.body.is_variable`); a fully ground head or body is rejected
(`invalidStatement` in the spec's taxonomy).  `adding` is always `False` on
the modelled paths, so construction does not insert into `all_rules`. -/
def Rule.make (head : Fact) (body : ExprOrFact) : Except Err Rule :=
  if head.is_variable then
    if body.is_variable then .ok ⟨head, body⟩ else .error .invalidStatement
  else
    .error .invalidStatement

/-- A variable binding dictionary (`dict[str, Term]`), as an association
list in insertion order.  On every reachable state the keys are distinct, so
first-match lookup coincides with Python dict lookup. -/
abbrev VarDict : Type := List (String × Term)

/-- Python `name in var_dict`. -/
def hasKey : VarDict → String → Bool
  | [], _ => false
  | (k, _) :: rest, n => k == n || hasKey rest n

/-- Python `var_dict.get(name)` (`none` when absent). -/
def dictGet : VarDict → String → Option Term
  | [], _ => none
  | (k, v) :: rest, n => if k == n then some v else dictGet rest n

/-- The per-argument substitution of `Fact.replace`:
`var_dict.get(term.name, term) if term.type == TermType.Var else term`. -/
def substArg (d : VarDict) (t : Term) : Term :=
  if t.type == TermType.Var then (dictGet d t.name).getD t else t

/-- Python `Fact.replace`. -/
def Fact.replace (f : Fact) (d : VarDict) : Fact :=
  ⟨f.rule, f.arguments.map (substArg d)⟩

/-- Python `replace` on the union type (`Expr.replace` rebuilds both operands). -/
def ExprOrFact.replace : ExprOrFact → VarDict → ExprOrFact
  | .fact r args, d => .fact r (args.map (substArg d))
  | .expr a b ty, d => .expr (a.replace d) (b.replace d) ty

/-- Variable names of a fact's argument list, in left-to-right order with
duplicates kept.  The source's `Fact.get_variables` returns the Python set
of these names. -/
def factVarNames (args : List Term) : List String :=
  (args.filter (fun t => t.type == TermType.Var)).map Term.name

/-- All variable-name occurrences of a query, depth-first left-to-right.
The source's `get_variables` methods return the Python set of these names;
a Python set iterates in a hash-dependent order, so only the membership of
this list is determined by the source (see `Env.ord` below). -/
def ExprOrFact.varNamesDFS : ExprOrFact → List String
  | .fact _ args => factVarNames args
  | .expr a b _ => a.varNamesDFS ++ b.varNamesDFS

/-- Python `Fact.__eq__`: same predicate (by `Term.__eq__`, i.e. name), same arity,
and pairwise name-equal arguments. -/
def beqFact (a b : Fact) : Bool :=
  Term.eq a.rule b.rule
    && a.arguments.length == b.arguments.length
    && (a.arguments.zip b.arguments).all (fun p => Term.eq p.1 p.2)

/-- Python `fact in Fact.all_facts` (list membership via `Fact.__eq__`). -/
def containsFact (fs : List Fact) (f : Fact) : Bool :=
  fs.any (fun g => beqFact g f)

/-- The dataclass-generated `Expr.__eq__` combined with `Fact.__eq__`: facts
compare by `Fact.__eq__`, expressions field-wise, and a fact never equals an
expression (`isinstance` check).  The stored `is_variable` fields compared
by the dataclass equality are derived deterministically from the other
fields, so comparing them is redundant and omitted here. -/
def beqEOF : ExprOrFact → ExprOrFact → Bool
  | .fact r1 a1, .fact r2 a2 => beqFact ⟨r1, a1⟩ ⟨r2, a2⟩
  | .expr a1 b1 t1, .expr a2 b2 t2 => beqEOF a1 a2 && beqEOF b1 b2 && t1 == t2
  | _, _ => false

/-- The dataclass-generated `Rule.__eq__` (fields `fact` and `body`). -/
def beqRule (a b : Rule) : Bool := beqFact a.fact b.fact && beqEOF a.body b.body

/-- Python `rule in Rule.all_rules`. -/
def containsRule (rs : List Rule) (r : Rule) : Bool :=
  rs.any (fun s => beqRule s r)

/-- Python `add_facts` from `term_fact_rule.py`: each new fact is appended unless an
equal fact is already present (checked against the list as mutated so far). -/
def add_facts (all_facts : List Fact) (new : List Fact) : List Fact :=
  new.foldl (fun acc f => if containsFact acc f then acc else acc ++ [f]) all_facts

/-- Python `add_rules` from `term_fact_rule.py`. -/
def add_rules (all_rules : List Rule) (new : List Rule) : List Rule :=
  new.foldl (fun acc r => if containsRule acc r then acc else acc ++ [r]) all_rules

/-- The `matches` body loop from `prolog.py`: zip the pattern against the call
arguments, asserting (`unsupportedPattern`) that no pattern name was bound
before, and bind `pattern_term.name -> term`. -/
def matchesAux : List (Term × Term) → VarDict → Except Err VarDict
  | [], acc => .ok acc
  | (p, t) :: rest, acc =>
    if hasKey acc p.name then .error .unsupportedPattern
    else matchesAux rest (acc ++ [(p.name, t)])

/-- Python `matches` from `prolog.py`: `none` when the argument lists differ in
length (a normal non-match), otherwise the binding dictionary built by
`matchesAux`. -/
def matchesFn (pattern terms : List Term) : Except Err (Option VarDict) :=
  if pattern.length != terms.length then .ok none
  else (matchesAux (pattern.zip terms) []).map some

example : matchesFn [⟨"X", .Var⟩, ⟨"Y", .Var⟩] [⟨"a", .Atom⟩, ⟨"b", .Atom⟩]
    = .ok (some [("X", ⟨"a", .Atom⟩), ("Y", ⟨"b", .Atom⟩)]) := by decide

example : matchesFn [⟨"X", .Var⟩, ⟨"X", .Var⟩] [⟨"a", .Atom⟩, ⟨"b", .Atom⟩]
    = .error .unsupportedPattern := by decide

example : matchesFn [⟨"X", .Var⟩] [⟨"a", .Atom⟩, ⟨"b", .Atom⟩] = .ok none := by decide

/-- The `TokenType` enum from `parser.py`. -/
inductive TokenType where
  | IDENT
  | LPAREN
  | RPAREN
  | PERIOD
  | EOF
  | COMMA
  | COLONDASH
  | SEMICOLON
deriving Repr, DecidableEq

/-- A token (source text plus type).  `Location` is tracked in the source
for diagnostics only (spec section 4.1 says not to rely on it), so it is
omitted here. -/
structure Token where
  source : String
  type : TokenType
deriving Repr, DecidableEq

/-- Python `TokenType.from_char` from the source. -/
def TokenType.from_char (c : Char) : TokenType :=
  if c = '(' then .LPAREN
  else if c = ')' then .RPAREN
  else if c = '.' then .PERIOD
  else if c = ',' then .COMMA
  else .SEMICOLON

/-- Identifier characters: `c.isalpha() or c == '_'`. -/
def isIdentChar (c : Char) : Bool := c.isAlpha || c == '_'

/-- The whitespace-skipping loop at the top of `Lexer.next_token`. -/
def skipWs : List Char → List Char
  | [] => []
  | c :: rest => if c.isWhitespace then skipWs rest else c :: rest

/-- Python `Lexer.next_token`, on the remaining character stream.  The lexer state
is the remaining input (the source's absolute positions are equivalent to
suffixes).  Unknown characters hit the final `assert False` (`lexError`);
`:` not followed by `-` falls through to the same assert. -/
def next_token (cs : List Char) : Except Err (Token × List Char) :=
  match skipWs cs with
  | [] => .ok (⟨"", TokenType.EOF⟩, [])
  | c :: rest =>
    if isIdentChar c then
      let ident := (c :: rest).takeWhile isIdentChar
      .ok (⟨String.mk ident, TokenType.IDENT⟩, (c :: rest).dropWhile isIdentChar)
    else if c = '(' || c = ')' || c = '.' || c = ',' || c = ';' then
      .ok (⟨String.mk [c], TokenType.from_char c⟩, rest)
    else if c = ':' then
      match rest with
      | '-' :: rest2 => .ok (⟨":-", TokenType.COLONDASH⟩, rest2)
      | _ => .error .lexError
    else .error .lexError

/-- Parser state: the symbol registry (the source's global `Term.all_terms`)
and the lexer's remaining input.  The source lexer's one-token `peeked`
cache is behaviourally transparent because `next_token` is a pure function
of the remaining input, so it is not modelled. -/
structure PState where
  reg : Registry
  cs : List Char
deriving Repr, DecidableEq

/-- A parsing computation: it may register names (mutating the registry) and
consumes input; on error the registry keeps all mutations made so far, as in
the source, where an exception leaves the global registry as is. -/
def PM (α : Type) : Type := PState → Except Err α × PState

def PM.pure (a : α) : PM α := fun s => (.ok a, s)

def PM.bind (x : PM α) (f : α → PM β) : PM β := fun s =>
  match x s with
  | (.error e, s1) => (.error e, s1)
  | (.ok a, s1) => f a s1

instance : Monad PM where
  pure := PM.pure
  bind := PM.bind

def PM.fail (e : Err) : PM α := fun s => (.error e, s)

/-- Python `Lexer.peek_token` (propagates lexing errors, consumes nothing). -/
def pPeek : PM Token := fun s =>
  match next_token s.cs with
  | .error e => (.error e, s)
  | .ok (t, _) => (.ok t, s)

/-- Python `Lexer.expect`: take the next token, asserting its type is one of
`tys` (`unexpectedToken` on failure, as in the source's `assert`). -/
def pExpect (tys : List TokenType) : PM Token := fun s =>
  match next_token s.cs with
  | .error e => (.error e, s)
  | .ok (t, cs1) =>
    if tys.contains t.type then (.ok t, { s with cs := cs1 })
    else (.error .unexpectedToken, s)

/-- Python `Lexer.take_token`: consume the next token if its type matches,
otherwise leave the stream alone and return `none`. -/
def pTake (tys : List TokenType) : PM (Option Token) := fun s =>
  match next_token s.cs with
  | .error e => (.error e, s)
  | .ok (t, cs1) =>
    if tys.contains t.type then (.ok (some t), { s with cs := cs1 })
    else (.ok none, s)

/-- Python `Term._term` lifted into the parser monad (the registry mutation of
`Term.__init__`). -/
def pTerm (name : String) (ty : TermType) : PM Term := fun s =>
  match Term.term s.reg name ty with
  | .error e => (.error e, s)
  | .ok (reg1, t) => (.ok t, { s with reg := reg1 })

/-- Python `Term.atom`: asserts `name[0].islower()` then interns as an Atom. -/
def pAtomTerm (name : String) : PM Term :=
  if headIsLower name then pTerm name TermType.Atom else PM.fail .assertFailed

/-- Python `Term.variable`: asserts `name[0].isupper()` then interns as a Var. -/
def pVarTerm (name : String) : PM Term :=
  if headIsUpper name then pTerm name TermType.Var else PM.fail .assertFailed

/-- Python `Term.rule`: asserts `name[0].islower()` then interns as a Rule. -/
def pRuleTerm (name : String) : PM Term :=
  if headIsLower name then pTerm name TermType.Rule else PM.fail .assertFailed

/-- Python `parse_atom_or_variable` from `parser.py`. -/
def parse_atom_or_variable : PM Term := do
  let tok ← pExpect [TokenType.IDENT]
  if headIsUpper tok.source then pVarTerm tok.source else pAtomTerm tok.source

/-- The `while lexer.take_token(COMMA)` argument loop of `parse_fact`. -/
def parseArgsLoop : Nat → List Term → PM (List Term)
  | 0, _ => PM.fail .outOfFuel
  | fuel + 1, acc => do
    match ← pTake [TokenType.COMMA] with
    | none => PM.pure acc
    | some _ => do
      let a ← parse_atom_or_variable
      parseArgsLoop fuel (acc ++ [a])

/-- Python `parse_fact` from `parser.py`.  Note the registration order of the
source: the argument terms are interned while the argument list is parsed,
and the predicate name is interned only afterwards, by the
`Term.rule(name.source)` call in the `return` expression. -/
def parse_fact (fuel : Nat) : PM Fact := do
  let name ← pExpect [TokenType.IDENT]
  let _ ← pExpect [TokenType.LPAREN]
  let peeked ← pPeek
  let args ←
    if peeked.type == TokenType.RPAREN then PM.pure []
    else do
      let a ← parse_atom_or_variable
      parseArgsLoop fuel [a]
  let _ ← pExpect [TokenType.RPAREN]
  let r ← pRuleTerm name.source
  fun s => (Fact.make r args, s)

/-- The per-level operator table `precedences` of the source: level 0 binds
Comma as And, level 1 binds Semicolon as Or (each level's dict has exactly
one key). -/
def precedences : List (TokenType × ExprType) :=
  [(TokenType.COMMA, ExprType.And), (TokenType.SEMICOLON, ExprType.Or)]

/-- The operator token of a level (`list(precedences[level])`). -/
def opTokenAt (level : Nat) : TokenType :=
  ((precedences.getD level (TokenType.COMMA, ExprType.And))).1

/-- The call `precedences[level][token.type](left, right)`: the binary combination
applied by a level (in the source `And` and `Or` build a single binary
`Expr` node when given two arguments). -/
def combineAt (level : Nat) (l r : ExprOrFact) : ExprOrFact :=
  .expr l r ((precedences.getD level (TokenType.COMMA, ExprType.And))).2

mutual

/-- Python `parse_primary` from `parser.py`. -/
def parse_primary : Nat → PM ExprOrFact
  | 0 => PM.fail .outOfFuel
  | fuel + 1 => do
    match ← pTake [TokenType.LPAREN] with
    | some _ => do
      let e ← parse_expression_at_level fuel 0
      let _ ← pExpect [TokenType.RPAREN]
      PM.pure e
    | none => do
      let f ← parse_fact fuel
      PM.pure f.toEOF

/-- Python `parse_expression_at_level` from `parser.py`: levels at or beyond
`len(precedences)` parse a primary; otherwise the left operand is parsed at
the next-inner level and the level's own operator loop follows (errors
propagate, written in explicit state-passing style). -/
def parse_expression_at_level : Nat → Nat → PM ExprOrFact
  | 0, _ => PM.fail .outOfFuel
  | fuel + 1, level =>
    if level ≥ precedences.length then parse_primary fuel
    else fun s =>
      match parse_expression_at_level fuel (level + 1) s with
      | (.error e, s1) => (.error e, s1)
      | (.ok left, s1) => parseLevelLoop fuel level left s1

/-- The `while (token := lexer.take_token(*list(precedences[level])))` loop
of `parse_expression_at_level`: each consumed operator combines the
accumulated left operand with a right operand parsed at the next-inner
level. -/
def parseLevelLoop : Nat → Nat → ExprOrFact → PM ExprOrFact
  | 0, _, _ => PM.fail .outOfFuel
  | fuel + 1, level, left => fun s =>
    match pTake [opTokenAt level] s with
    | (.error e, s1) => (.error e, s1)
    | (.ok none, s1) => (.ok left, s1)
    | (.ok (some _), s1) =>
      match parse_expression_at_level fuel (level + 1) s1 with
      | (.error e, s2) => (.error e, s2)
      | (.ok right, s2) => parseLevelLoop fuel level (combineAt level left right) s2

end

/-- Python `parse_fact_or_expr` from `parser.py`. -/
def parse_fact_or_expr (fuel : Nat) : PM ExprOrFact :=
  parse_expression_at_level fuel 0

/-- Python `parse_statement` from `parser.py`.  A `:-` after the head fact yields a
`Rule` (whose construction runs the `Rule.__post_init__` asserts) with no
terminator required; otherwise a period and end of input are required and a
head containing variables is rejected (`assert not fact.is_variable`,
`invalidStatement`). -/
def parse_statement (fuel : Nat) : PM (Fact ⊕ Rule) := do
  let fact ← parse_fact fuel
  match ← pTake [TokenType.COLONDASH] with
  | some _ => do
    let body ← parse_fact_or_expr fuel
    match Rule.make fact body with
    | .error e => PM.fail e
    | .ok r => PM.pure (Sum.inr r)
  | none => do
    let _ ← pExpect [TokenType.PERIOD]
    let _ ← pExpect [TokenType.EOF]
    if fact.is_variable then PM.fail .invalidStatement
    else PM.pure (Sum.inl fact)

/-- Python `parse_query` from `parser.py`. -/
def parse_query (fuel : Nat) : PM ExprOrFact := do
  let e ← parse_fact_or_expr fuel
  let _ ← pExpect [TokenType.PERIOD]
  let _ ← pExpect [TokenType.EOF]
  PM.pure e

example :
    (parse_query 30 ⟨Registry.empty, "a(), b(); c().".data⟩).1 =
      .ok (.expr (.fact ⟨"a", TermType.Rule⟩ [])
            (.expr (.fact ⟨"b", TermType.Rule⟩ []) (.fact ⟨"c", TermType.Rule⟩ []) .Or)
            .And) := by decide

/-- The lists `Fact.all_facts` and `Rule.all_rules`: the Knowledge Base, each list in
insertion order. -/
structure KB where
  all_facts : List Fact
  all_rules : List Rule
deriving Repr, DecidableEq

def KB.empty : KB := ⟨[], []⟩

/-- Python `str.strip` on the character list. -/
def trimChars (cs : List Char) : List Char :=
  ((cs.dropWhile Char.isWhitespace).reverse.dropWhile Char.isWhitespace).reverse

/-- The comment convention of `handle_statement` / `handle_query`:
`line.strip().split("%")` keeping the first part. -/
def stripComment (cs : List Char) : List Char :=
  (trimChars cs).takeWhile (fun c => c ≠ '%')

/-- The body of `handle_statement` after comment stripping: an empty
statement is a no-op; otherwise the statement is parsed (with the registry
threaded through and kept as mutated when an error is raised), and only on
success is the parsed fact or rule inserted into the Knowledge Base via
`add_facts` / `add_rules`. -/
def handle_statement1 (fuel : Nat) (reg : Registry) (kb : KB) (stmt : List Char) :
    Except Err Unit × Registry × KB :=
  if stmt.isEmpty then (.ok (), reg, kb)
  else
    match parse_statement fuel ⟨reg, stmt⟩ with
    | (.error e, s1) => (.error e, s1.reg, kb)
    | (.ok (Sum.inl f), s1) => (.ok (), s1.reg, ⟨add_facts kb.all_facts [f], kb.all_rules⟩)
    | (.ok (Sum.inr r), s1) => (.ok (), s1.reg, ⟨kb.all_facts, add_rules kb.all_rules [r]⟩)

/-- Python `handle_statement` from `prolog.py`. -/
def handle_statement (fuel : Nat) (reg : Registry) (kb : KB) (line : List Char) :
    Except Err Unit × Registry × KB :=
  handle_statement1 fuel reg kb (stripComment line)

/-- The environment read by the resolution engine: the interned atom names
in registration order (`Term.all_terms[TermType.Atom]`), the Knowledge Base
lists, and `ord`, the iteration order of the Python set returned by
`get_variables`.  A Python set iterates its elements in a hash-dependent
order that is not determined by the source text (the hash seed is randomized
per process), so the engine is modelled relative to an arbitrary such order;
theorems that need it assume `ord` enumerates exactly the distinct variable
names of the query. -/
structure Env where
  atoms : List String
  facts : List Fact
  rules : List Rule
  ord : ExprOrFact → List String

/-- One admissible `ord`: the distinct variable names in first-seen
depth-first left-to-right order. -/
def setOrd : ExprOrFact → List String := fun f => f.varNamesDFS.dedup

/-- The return type of `query` (`bool | list[dict[str, Term]]`). -/
inductive Res where
  | b (val : Bool)
  | l (val : List VarDict)
deriving Repr, DecidableEq

/-- Python truthiness as used in `if query(...)`: a boolean is itself, a
list is truthy iff non-empty. -/
def Res.truthy : Res → Bool
  | .b v => v
  | .l v => !v.isEmpty

/-- The rule loop of `query_simple` (`for rule in Rule.all_rules`),
abstracted over the evaluation of a substituted rule body: rules whose head
predicate differs (`rule.fact.rule == fact.rule` is `Term.__eq__`) are
skipped; a `None` match (arity mismatch) is skipped; a truthy body
evaluation short-circuits to `True`; if the loop falls through, the result
is `fact in Fact.all_facts`. -/
def tryRulesWith (evalBody : ExprOrFact → Except Err Res) (facts : List Fact) (f : Fact) :
    List Rule → Except Err Bool
  | [] => .ok (containsFact facts f)
  | r :: rs =>
    if Term.eq r.fact.rule f.rule then
      match matchesFn r.fact.arguments f.arguments with
      | .error e => .error e
      | .ok none => tryRulesWith evalBody facts f rs
      | .ok (some d) =>
        match evalBody (r.body.replace d) with
        | .error e => .error e
        | .ok res => if res.truthy then .ok true else tryRulesWith evalBody facts f rs
    else tryRulesWith evalBody facts f rs

/-- Python `itertools.product(domain, repeat=n)` over a list, returning tuples in
the product order (first coordinate outermost, i.e. the rightmost
coordinate cycles fastest). -/
def listProduct (l : List Q) : Nat → List (List Q)
  | 0 => [[]]
  | n + 1 => (l.map (fun x => (listProduct l n).map (fun t => x :: t))).flatten

/-- The binding dictionary built for one tuple in `query_variable`:
`{var: Term.all_terms[TermType.Atom][atoms[i]] for (i, var) in enumerate(variables)}`. -/
def mkBinding (vars : List String) (tup : List String) : VarDict :=
  vars.zip (tup.map (fun n => (⟨n, TermType.Atom⟩ : Term)))

/-- The enumeration loop of `query_variable`, abstracted over ground
evaluation: for each candidate tuple, substitute and evaluate; a success is
appended to the accumulator, and when `needs_all_answers` is false the loop
breaks right after the first success. -/
def qvLoop (evalGround : ExprOrFact → Except Err Bool) (f : ExprOrFact) (needsAll : Bool)
    (vars : List String) : List (List String) → List VarDict → Except Err (List VarDict)
  | [], acc => .ok acc
  | tup :: rest, acc =>
    let d := mkBinding vars tup
    match evalGround (f.replace d) with
    | .error e => .error e
    | .ok true =>
      if needsAll then qvLoop evalGround f needsAll vars rest (acc ++ [d])
      else .ok (acc ++ [d])
    | .ok false => qvLoop evalGround f needsAll vars rest acc

mutual

/-- Python `query_simple` from `prolog.py`: asserts the query is ground, resolves a
`Fact` through the rule loop with fact-list fallback (rule bodies are
evaluated through `query` with `needs_all_var_answers = False` — the lambda
below is definitionally `fun e => query env fuel e false`), and evaluates
`And` / `Or` expressions by short-circuiting recursion. -/
def query_simple (env : Env) : Nat → ExprOrFact → Except Err Bool
  | 0, _ => .error .outOfFuel
  | fuel + 1, f =>
    if f.is_variable then .error .assertFailed
    else
      match f with
      | .fact r args =>
        tryRulesWith
          (fun e =>
            if e.is_variable then (query_variable env fuel e false).map Res.l
            else (query_simple env fuel e).map Res.b)
          env.facts ⟨r, args⟩ env.rules
      | .expr a b ty =>
        match ty with
        | .And =>
          match query_simple env fuel a with
          | .error e => .error e
          | .ok true => query_simple env fuel b
          | .ok false => .ok false
        | .Or =>
          match query_simple env fuel a with
          | .error e => .error e
          | .ok true => .ok true
          | .ok false => query_simple env fuel b

/-- Python `query_variable` from `prolog.py`: asserts the query contains a
variable, then enumerates every tuple of interned atoms of length
`len(variables)` in product order with `qvLoop`. -/
def query_variable (env : Env) : Nat → ExprOrFact → Bool → Except Err (List VarDict)
  | 0, _, _ => .error .outOfFuel
  | fuel + 1, f, needsAll =>
    if f.is_variable then
      let vars := env.ord f
      qvLoop (fun e => query_simple env fuel e) f needsAll vars
        (listProduct env.atoms vars.length) []
    else .error .assertFailed

end

/-- Python `query` from `prolog.py`: dispatch on `is_variable`. -/
def query (env : Env) (fuel : Nat) (f : ExprOrFact) (needs_all_var_answers : Bool) :
    Except Err Res :=
  if f.is_variable then (query_variable env fuel f needs_all_var_answers).map Res.l
  else (query_simple env fuel f).map Res.b

/-- The atom, variable and predicate terms used by the concrete test
environments below. -/
def tomT : Term := ⟨"tom", TermType.Atom⟩
def bobT : Term := ⟨"bob", TermType.Atom⟩
def annT : Term := ⟨"ann", TermType.Atom⟩
def varX : Term := ⟨"X", TermType.Var⟩
def varY : Term := ⟨"Y", TermType.Var⟩
def varZ : Term := ⟨"Z", TermType.Var⟩
def parentT : Term := ⟨"parent", TermType.Rule⟩
def grandparentT : Term := ⟨"grandparent", TermType.Rule⟩

/-- The rule `grandparent(X,Z) :- parent(X,Y), parent(Y,Z).` as a value. -/
def gpRule : Rule :=
  ⟨⟨grandparentT, [varX, varZ]⟩,
   .expr (.fact parentT [varX, varY]) (.fact parentT [varY, varZ]) .And⟩

/-- Knowledge base of the spec's rule-chaining test: facts
`parent(tom,bob)` and `parent(bob,ann)`, the grandparent rule, atoms
registered in order tom, bob, ann. -/
def env1 : Env :=
  ⟨["tom", "bob", "ann"],
   [⟨parentT, [tomT, bobT]⟩, ⟨parentT, [bobT, annT]⟩],
   [gpRule],
   setOrd⟩

example : query_simple env1 10 (.fact grandparentT [tomT, annT]) = .ok true := by decide

example : query_simple env1 10 (.fact grandparentT [tomT, bobT]) = .ok false := by decide

example : query_variable env1 10 (.fact parentT [tomT, varY]) true
    = .ok [[("Y", bobT)]] := by decide

/-- Spec-side formulation for claim C1, following the claim's words: the
outcome of a single rule for a ground fact query with predicate `p` — `ok
false` when the head predicate differs or the head does not match, and
otherwise the (truthiness of the) recursive evaluation of the substituted
body; errors raised while matching or evaluating propagate. -/
def ruleOutcomeWith (evalBody : ExprOrFact → Except Err Res) (f : Fact) (r : Rule) :
    Except Err Bool :=
  if Term.eq r.fact.rule f.rule then
    match matchesFn r.fact.arguments f.arguments with
    | .error e => .error e
    | .ok none => .ok false
    | .ok (some d) =>
      match evalBody (r.body.replace d) with
      | .error e => .error e
      | .ok res => .ok res.truthy
  else .ok false

/-- The body evaluator of claim C1: recursive evaluation through `query`
with `needAllAnswers = false`. -/
def ruleOutcome (env : Env) (fuel : Nat) (f : Fact) (r : Rule) : Except Err Bool :=
  ruleOutcomeWith (fun e => query env fuel e false) f r

/-- Spec-side combinator for claim C1: the first `ok true` of the list wins
immediately (later entries are ignored, including errors); an error
encountered before any `ok true` propagates; if everything is `ok false`,
the default (fact-list membership in C1) is returned. -/
def firstTrueElse : List (Except Err Bool) → Bool → Except Err Bool
  | [], dflt => .ok dflt
  | x :: xs, dflt =>
    match x with
    | .error e => .error e
    | .ok true => .ok true
    | .ok false => firstTrueElse xs dflt

theorem tryRulesWith_eq_firstTrue (evalBody : ExprOrFact → Except Err Res)
    (facts : List Fact) (f : Fact) :
    ∀ rs : List Rule,
      tryRulesWith evalBody facts f rs
        = firstTrueElse (rs.map (ruleOutcomeWith evalBody f)) (containsFact facts f) := by
  intro rs
  induction rs with
  | nil => rfl
  | cons r rs ih =>
    simp only [List.map_cons]
    by_cases h1 : Term.eq r.fact.rule f.rule
    · cases hm : matchesFn r.fact.arguments f.arguments with
      | error e => simp [tryRulesWith, firstTrueElse, ruleOutcomeWith, h1, hm]
      | ok o =>
        cases o with
        | none => simp [tryRulesWith, firstTrueElse, ruleOutcomeWith, h1, hm, ih]
        | some d =>
          cases he : evalBody (r.body.replace d) with
          | error e => simp [tryRulesWith, firstTrueElse, ruleOutcomeWith, h1, hm, he]
          | ok res =>
            cases ht : res.truthy with
            | true => simp [tryRulesWith, firstTrueElse, ruleOutcomeWith, h1, hm, he, ht]
            | false =>
              simp [tryRulesWith, firstTrueElse, ruleOutcomeWith, h1, hm, he, ht, ih]
    · simp [tryRulesWith, firstTrueElse, ruleOutcomeWith, h1, ih]

/-- C1: for a ground `Fact` query with predicate `p`, `query_simple`
iterates the rule list in insertion order; every rule whose head predicate
equals `p` and whose head matches the query's arguments has its body
substituted and recursively evaluated through `query` with
`needAllAnswers = false`; the first truthy body evaluation short-circuits to
`true` (no later rule is examined); if no rule yields true, the result is
membership of an equal fact (by `Fact.__eq__`) in the stored fact list. -/
theorem c1_query_simple_ground_fact (env : Env) (fuel : Nat) (p : Term) (args : List Term)
    (h : (ExprOrFact.fact p args).is_variable = false) :
    query_simple env (fuel + 1) (.fact p args)
      = firstTrueElse (env.rules.map (ruleOutcome env fuel ⟨p, args⟩))
          (containsFact env.facts ⟨p, args⟩) := by
  rw [query_simple, h]
  simp only [Bool.false_eq_true, if_false]
  exact tryRulesWith_eq_firstTrue (fun e => query env fuel e false) env.facts ⟨p, args⟩ env.rules

theorem c1_witness :
    ((ExprOrFact.fact grandparentT [tomT, annT]).is_variable = false)
    ∧ query_simple env1 (9 + 1) (.fact grandparentT [tomT, annT])
        = firstTrueElse (env1.rules.map (ruleOutcome env1 9 ⟨grandparentT, [tomT, annT]⟩))
            (containsFact env1.facts ⟨grandparentT, [tomT, annT]⟩) :=
  ⟨by decide, c1_query_simple_ground_fact env1 9 grandparentT [tomT, annT] (by decide)⟩

theorem Term_eq_refl (t : Term) : Term.eq t t = true := by
  simp [Term.eq]

theorem zip_self_all_termEq (l : List Term) :
    (l.zip l).all (fun p => Term.eq p.1 p.2) = true := by
  induction l with
  | nil => rfl
  | cons a l ih => simpa [Term.eq] using ih

theorem beqFact_refl (f : Fact) : beqFact f f = true := by
  unfold beqFact
  simp [Term_eq_refl, zip_self_all_termEq]

theorem beqEOF_refl (e : ExprOrFact) : beqEOF e e = true := by
  induction e with
  | fact r args => simpa [beqEOF] using beqFact_refl ⟨r, args⟩
  | expr a b ty iha ihb => simp [beqEOF, iha, ihb]

theorem beqRule_refl (r : Rule) : beqRule r r = true := by
  simp [beqRule, beqFact_refl, beqEOF_refl]

/-- C9: `add_facts` / `add_rules` (the mutators behind `insertFact` /
`insertRule`) are idempotent: inserting a fact (rule) equal — by
`Fact.__eq__` (the dataclass `Rule.__eq__`) — to one already present leaves
the stored list unchanged, otherwise the entity is appended at the end; in
particular inserting the same entity twice equals inserting it once. -/
theorem c9_insert_idempotent :
    (∀ fs f, add_facts fs [f] = (if containsFact fs f then fs else fs ++ [f]))
    ∧ (∀ fs f, add_facts (add_facts fs [f]) [f] = add_facts fs [f])
    ∧ (∀ rs r, add_rules rs [r] = (if containsRule rs r then rs else rs ++ [r]))
    ∧ (∀ rs r, add_rules (add_rules rs [r]) [r] = add_rules rs [r]) := by
  refine ⟨fun fs f => rfl, fun fs f => ?_, fun rs r => rfl, fun rs r => ?_⟩
  · by_cases h : containsFact fs f = true
    · simp [add_facts, h]
    · simp only [add_facts, List.foldl]
      rw [if_neg h]
      have h2 : containsFact (fs ++ [f]) f = true := by
        simp [containsFact, List.any_append, beqFact_refl]
      rw [if_pos h2]
  · by_cases h : containsRule rs r = true
    · simp [add_rules, h]
    · simp only [add_rules, List.foldl]
      rw [if_neg h]
      have h2 : containsRule (rs ++ [r]) r = true := by
        simp [containsRule, List.any_append, beqRule_refl]
      rw [if_pos h2]

/-- Every `TermType` is a member of `TermType.all`. -/
theorem TermType.mem_all (t : TermType) : t ∈ TermType.all := by
  cases t <;> simp [TermType.all]

/-- The effect of `Registry.add` on each namespace. -/
theorem Registry.names_add (r : Registry) (t t' : TermType) (n : String) :
    (r.add t n).names t' = if t' = t then r.names t' ++ [n] else r.names t' := by
  cases t <;> cases t' <;> simp [Registry.add, Registry.names]

/-- The global uniqueness invariant of the Symbol Registry: no name is
registered under two different kinds. -/
def Registry.wf (r : Registry) : Bool :=
  TermType.all.all (fun t1 => TermType.all.all (fun t2 =>
    t1 == t2 || (r.names t1).all (fun m => !(decide (m ∈ r.names t2)))))

theorem Registry.wf_iff (r : Registry) :
    Registry.wf r = true ↔
      ∀ t1 t2 : TermType, t1 ≠ t2 → ∀ m ∈ r.names t1, m ∉ r.names t2 := by
  unfold Registry.wf
  simp only [List.all_eq_true, Bool.or_eq_true, beq_iff_eq, Bool.not_eq_true',
    decide_eq_false_iff_not]
  constructor
  · intro h t1 t2 hne m hm
    rcases h t1 (TermType.mem_all t1) t2 (TermType.mem_all t2) with h3 | h3
    · exact absurd h3 hne
    · exact h3 m hm
  · intro h t1 _ t2 _
    by_cases hne : t1 = t2
    · exact Or.inl hne
    · exact Or.inr (fun m hm => h t1 t2 hne m hm)

/-- C8: interning behaviour of `Term._term` / `Term.__init__`.  A request
for an already-registered (name, kind) pair returns the same canonical
interned term and leaves the registry untouched; a request for a name
registered under a different kind is a `NameKindConflictError`; the empty
registry satisfies the at-most-one-kind invariant and every successful
creation preserves it, so a name is registered under at most one kind at
any time. -/
theorem c8_interning (r : Registry) (n : String) (t t2 : TermType) :
    ((r.names t).contains n = true → Term.term r n t = .ok (r, ⟨n, t⟩))
    ∧ (t2 ≠ t → (r.names t2).contains n = true → (r.names t).contains n = false →
        Term.term r n t = .error .nameKindConflict)
    ∧ (Registry.wf Registry.empty = true)
    ∧ (Registry.wf r = true → ∀ r2 tm, Term.term r n t = .ok (r2, tm) →
        Registry.wf r2 = true) := by
  refine ⟨?_, ?_, by decide, ?_⟩
  · intro h
    rw [Term.term, if_pos h]
  · intro hne h2 h1
    rw [Term.term, if_neg (by rw [h1]; decide),
      if_pos (List.any_eq_true.mpr ⟨t2, TermType.mem_all t2, h2⟩)]
  · intro hwf r2 tm
    rw [Term.term]
    by_cases h1 : (r.names t).contains n = true
    · rw [if_pos h1]
      intro h
      cases h
      exact hwf
    · rw [if_neg h1]
      by_cases h2 : TermType.all.any (fun t3 => (r.names t3).contains n) = true
      · rw [if_pos h2]
        intro h
        cases h
      · rw [if_neg h2]
        intro h
        have hnone : ∀ t3 : TermType, n ∉ r.names t3 := by
          intro t3 hc
          exact h2 (List.any_eq_true.mpr
            ⟨t3, TermType.mem_all t3, List.elem_iff.mpr hc⟩)
        cases h
        rw [Registry.wf_iff] at hwf ⊢
        intro u1 u2 hne m hm
        rw [Registry.names_add] at hm
        rw [Registry.names_add]
        by_cases e1 : u1 = t
        · rw [if_pos e1] at hm
          rw [if_neg (fun e2 => hne (e1.trans e2.symm))]
          rcases List.mem_append.mp hm with hm1 | hm1
          · exact hwf u1 u2 hne m hm1
          · have hmn : m = n := by simpa using hm1
            subst hmn
            exact hnone u2
        · rw [if_neg e1] at hm
          by_cases e2 : u2 = t
          · rw [if_pos e2]
            intro hc
            rcases List.mem_append.mp hc with hc1 | hc1
            · exact hwf u1 u2 hne m hm hc1
            · have hmn : m = n := by simpa using hc1
              subst hmn
              exact hnone u1 hm
          · rw [if_neg e2]
            exact hwf u1 u2 hne m hm

theorem c8_witness :
    (((⟨[], [], ["foo"]⟩ : Registry).names TermType.Atom).contains "foo" = true)
    ∧ Term.term ⟨[], [], ["foo"]⟩ "foo" TermType.Atom
        = .ok (⟨[], [], ["foo"]⟩, ⟨"foo", TermType.Atom⟩)
    ∧ (TermType.Atom ≠ TermType.Var
        ∧ ((⟨[], [], ["foo"]⟩ : Registry).names TermType.Atom).contains "foo" = true
        ∧ ((⟨[], [], ["foo"]⟩ : Registry).names TermType.Var).contains "foo" = false)
    ∧ Term.term ⟨[], [], ["foo"]⟩ "foo" TermType.Var = .error .nameKindConflict := by
  refine ⟨by decide, ?_, ⟨by decide, by decide, by decide⟩, ?_⟩
  · exact (c8_interning ⟨[], [], ["foo"]⟩ "foo" TermType.Atom TermType.Var).1 (by decide)
  · exact (c8_interning ⟨[], [], ["foo"]⟩ "foo" TermType.Var TermType.Atom).2.1
      (by decide) (by decide) (by decide)

theorem hasKey_iff (d : VarDict) (n : String) :
    hasKey d n = true ↔ n ∈ d.map Prod.fst := by
  induction d with
  | nil => simp [hasKey]
  | cons p rest ih =>
    obtain ⟨k, v⟩ := p
    rw [hasKey]
    simp only [List.map_cons, List.mem_cons, Bool.or_eq_true, beq_iff_eq, ih]
    constructor
    · rintro (h | h)
      · exact Or.inl h.symm
      · exact Or.inr h
    · rintro (h | h)
      · exact Or.inl h.symm
      · exact Or.inr h

/-- The loop `matchesAux` hits the repeated-name assert as soon as a pattern name
repeats an already-bound key. -/
theorem matchesAux_dup_error :
    ∀ (ps : List (Term × Term)) (acc : VarDict),
      (acc.map Prod.fst).Nodup →
      ¬ ((acc.map Prod.fst) ++ ps.map (fun p => p.1.name)).Nodup →
      matchesAux ps acc = .error .unsupportedPattern := by
  intro ps
  induction ps with
  | nil =>
    intro acc hacc hdup
    simp only [List.map_nil, List.append_nil] at hdup
    exact absurd hacc hdup
  | cons p rest ih =>
    obtain ⟨a, b⟩ := p
    intro acc hacc hdup
    by_cases hk : hasKey acc a.name = true
    · rw [matchesAux, if_pos hk]
    · have hnk : a.name ∉ acc.map Prod.fst :=
        fun hc => hk ((hasKey_iff acc a.name).mpr hc)
      rw [matchesAux, if_neg (by rw [Bool.not_eq_true] at hk; rw [hk]; decide)]
      apply ih (acc ++ [(a.name, b)])
      · rw [List.map_append]
        exact ((List.perm_append_singleton _ _).nodup_iff).mpr
          (List.nodup_cons.mpr ⟨hnk, hacc⟩)
      · rw [List.map_append, List.append_assoc]
        simpa using hdup

/-- When all pattern names are fresh, `matchesAux` binds each pattern
term's name to the paired call argument, in order, never comparing the two
terms. -/
theorem matchesAux_nodup_ok :
    ∀ (ps : List (Term × Term)) (acc : VarDict),
      ((acc.map Prod.fst) ++ ps.map (fun p => p.1.name)).Nodup →
      matchesAux ps acc = .ok (acc ++ ps.map (fun p => (p.1.name, p.2))) := by
  intro ps
  induction ps with
  | nil =>
    intro acc _
    simp [matchesAux]
  | cons p rest ih =>
    obtain ⟨a, b⟩ := p
    intro acc hnd
    have hdisj : List.Disjoint (acc.map Prod.fst)
        ((a, b) :: rest |>.map (fun p => p.1.name)) :=
      List.disjoint_of_nodup_append hnd
    have hnk : a.name ∉ acc.map Prod.fst := by
      intro hc
      exact hdisj hc (by simp)
    rw [matchesAux,
      if_neg (by
        rw [Bool.not_eq_true]
        rw [(Bool.not_eq_true _).mp (fun hc => hnk ((hasKey_iff acc a.name).mp hc))])]
    rw [ih (acc ++ [(a.name, b)]) (by
      rw [List.map_append, List.append_assoc]
      simpa using hnd)]
    simp

def aT : Term := ⟨"a", TermType.Atom⟩
def bT : Term := ⟨"b", TermType.Atom⟩
def cT : Term := ⟨"c", TermType.Atom⟩
def pT : Term := ⟨"p", TermType.Rule⟩
def qT : Term := ⟨"q", TermType.Rule⟩
def sameT : Term := ⟨"same", TermType.Rule⟩

/-- The rule `same(X,X) :- q(X).` as a value. -/
def sameRule : Rule := ⟨⟨sameT, [varX, varX]⟩, .fact qT [varX]⟩

/-- Environment holding only the repeated-variable-head rule. -/
def envSame : Env := ⟨["a"], [], [sameRule], setOrd⟩

/-- C6: a rule whose head repeats a variable name is accepted at
construction (parsing and `Rule.__post_init__` succeed, so inserting it
succeeds), and the `UnsupportedPatternError` is raised only when the
Pattern Matcher first attempts to match a call against that head: `matches`
errors on any name-duplicating pattern of matching arity, rule construction
never checks it, and a concrete query against `same/2` errors during
evaluation even though the statement `same(X,X):-q(X)` was processed
without error. -/
theorem c6_repeated_head_variable :
    (∀ (pattern terms : List Term), pattern.length = terms.length →
        ¬ (pattern.map Term.name).Nodup →
        matchesFn pattern terms = .error .unsupportedPattern)
    ∧ (∀ (head : Fact) (body : ExprOrFact), head.is_variable = true →
        body.is_variable = true → Rule.make head body = .ok ⟨head, body⟩)
    ∧ (parse_statement 30 ⟨Registry.empty, "same(X,X):-q(X)".data⟩).1
        = .ok (Sum.inr sameRule)
    ∧ query_simple envSame 5 (.fact sameT [aT, aT]) = .error .unsupportedPattern := by
  refine ⟨?_, ?_, by decide, by decide⟩
  · intro pattern terms hlen hdup
    rw [matchesFn, if_neg (by rw [hlen]; simp)]
    rw [matchesAux_dup_error (pattern.zip terms) [] (by simp) ?_]
    · rfl
    · have hzip : (pattern.zip terms).map (fun p => p.1.name) = pattern.map Term.name := by
        have h1 : (fun p : Term × Term => p.1.name) = (Term.name ∘ Prod.fst) := rfl
        rw [h1, ← List.map_map, List.map_fst_zip pattern terms (le_of_eq hlen)]
      simpa [hzip] using hdup
  · intro head body hh hb
    simp [Rule.make, hh, hb]

theorem c6_witness :
    ([varX, varX].length = [aT, bT].length)
    ∧ (¬ ([varX, varX].map Term.name).Nodup)
    ∧ matchesFn [varX, varX] [aT, bT] = .error .unsupportedPattern :=
  ⟨by decide, by decide,
    c6_repeated_head_variable.1 [varX, varX] [aT, bT] (by decide) (by decide)⟩

/-- Environment of the wildcard demonstration: rule `p(a, X) :- q(X).`,
fact `q(c).`, atoms registered in order c, b. -/
def envWild : Env := ⟨["c", "b"], [⟨qT, [cT]⟩], [⟨⟨pT, [aT, varX]⟩, .fact qT [varX]⟩], setOrd⟩

/-- C10: when a stored rule head contains an Atom in some argument
position, matching never compares the call's argument with that Atom: for
any call of the right arity (and a head without repeated names) `matches`
succeeds and binds every pattern name — the Atom's name included — to the
corresponding call argument; substitution replaces only Variable
arguments, so the Atom binding is inert; concretely, the query `p(b, c)`
succeeds through the rule `p(a, X) :- q(X)` even though `b` differs from
the head atom `a`. -/
theorem c10_atom_head_wildcard :
    (∀ (pattern terms : List Term), pattern.length = terms.length →
        (pattern.map Term.name).Nodup →
        matchesFn pattern terms
          = .ok (some ((pattern.zip terms).map (fun p => (p.1.name, p.2)))))
    ∧ (∀ (d : VarDict) (t : Term), t.type ≠ TermType.Var → substArg d t = t)
    ∧ matchesFn [aT, varX] [bT, cT] = .ok (some [("a", bT), ("X", cT)])
    ∧ query_simple envWild 5 (.fact pT [bT, cT]) = .ok true := by
  refine ⟨?_, ?_, by decide, by decide⟩
  · intro pattern terms hlen hnd
    rw [matchesFn, if_neg (by rw [hlen]; simp)]
    rw [matchesAux_nodup_ok (pattern.zip terms) [] ?_]
    · rfl
    · have hzip : (pattern.zip terms).map (fun p => p.1.name) = pattern.map Term.name := by
        have h1 : (fun p : Term × Term => p.1.name) = (Term.name ∘ Prod.fst) := rfl
        rw [h1, ← List.map_map, List.map_fst_zip pattern terms (le_of_eq hlen)]
      simpa [hzip] using hnd
  · intro d t h
    simp [substArg, h]

theorem c10_witness :
    ([aT, varX].length = [bT, cT].length)
    ∧ (([aT, varX].map Term.name).Nodup)
    ∧ matchesFn [aT, varX] [bT, cT]
        = .ok (some (([aT, varX].zip [bT, cT]).map (fun p => (p.1.name, p.2)))) :=
  ⟨by decide, by decide,
    c10_atom_head_wildcard.1 [aT, varX] [bT, cT] (by decide) (by decide)⟩

/-- C7 counterexample: the statement `p(X, a) :- q(X)` is accepted — its
parse succeeds and yields a rule — although the accepted rule's head
argument list contains the Atom `a`, i.e. not every head argument is a
Variable. -/
theorem c7_counterexample :
    (parse_statement 30 ⟨Registry.empty, "p(X, a) :- q(X)".data⟩).1
      = .ok (Sum.inr ⟨⟨pT, [varX, aT]⟩, .fact qT [varX]⟩)
    ∧ ¬ (∀ t ∈ [varX, aT], t.type = TermType.Var) := ⟨by decide, by decide⟩

/-- C7 (amended): a rule accepted at construction has at least one Variable
among its head arguments and at least one variable in its body (not
necessarily all head arguments); a rule whose head or body is fully ground
is rejected at construction with `InvalidStatementError`. -/
theorem c7_amended (head : Fact) (body : ExprOrFact) :
    (Rule.make head body = .ok ⟨head, body⟩
      ∨ Rule.make head body = .error .invalidStatement)
    ∧ (Rule.make head body = .ok ⟨head, body⟩ ↔
        (∃ t ∈ head.arguments, t.type = TermType.Var) ∧ body.is_variable = true) := by
  constructor
  · by_cases hh : head.is_variable = true
    · by_cases hb : body.is_variable = true
      · exact Or.inl (by simp [Rule.make, hh, hb])
      · exact Or.inr (by simp [Rule.make, hh, hb])
    · exact Or.inr (by simp [Rule.make, hh])
  · constructor
    · intro h
      by_cases hh : head.is_variable = true
      · by_cases hb : body.is_variable = true
        · refine ⟨?_, hb⟩
          have := List.any_eq_true.mp hh
          obtain ⟨t, ht, hty⟩ := this
          exact ⟨t, ht, by simpa using hty⟩
        · simp [Rule.make, hh, hb] at h
      · simp [Rule.make, hh] at h
    · rintro ⟨⟨t, ht, hty⟩, hb⟩
      have hh : head.is_variable = true :=
        List.any_eq_true.mpr ⟨t, ht, by simp [hty]⟩
      simp [Rule.make, hh, hb]

/-- C5 counterexample: processing the statement line `foo(bar` raises a
SyntaxError (missing closing parenthesis), yet the Symbol Registry after
the failed statement contains the atom `bar`, which was interned while the
argument list was being parsed — the registry is not left exactly as it was
before the statement began (the Knowledge Base is). -/
theorem c5_counterexample :
    handle_statement 30 Registry.empty KB.empty "foo(bar".data
      = (.error .unexpectedToken, ⟨[], [], ["bar"]⟩, KB.empty)
    ∧ (⟨[], [], ["bar"]⟩ : Registry) ≠ Registry.empty := ⟨by decide, by decide⟩

/-- C5 (amended): when processing of a statement line raises an error, the
Knowledge Base is left exactly as it was before the statement began (facts
and rules are inserted only after a fully successful parse), but the Symbol
Registry may retain the names that were registered before the error was
raised. -/
theorem c5_kb_preserved (fuel : Nat) (reg : Registry) (kb : KB) (line : List Char)
    (e : Err) (h : (handle_statement fuel reg kb line).1 = .error e) :
    (handle_statement fuel reg kb line).2.2 = kb := by
  unfold handle_statement handle_statement1 at h ⊢
  by_cases h0 : (stripComment line).isEmpty
  · rw [if_pos h0] at h
    exact absurd h (by simp)
  · rw [if_neg h0] at h ⊢
    rcases hp : parse_statement fuel ⟨reg, stripComment line⟩ with ⟨res, s1⟩
    rw [hp] at h
    cases res with
    | error e2 => rfl
    | ok v =>
      cases v with
      | inl f => exact Except.noConfusion h
      | inr r => exact Except.noConfusion h


theorem c5_witness :
    ((handle_statement 30 Registry.empty KB.empty "foo(bar".data).1
      = .error .unexpectedToken)
    ∧ (handle_statement 30 Registry.empty KB.empty "foo(bar".data).2.2 = KB.empty :=
  ⟨by decide,
    c5_kb_preserved 30 Registry.empty KB.empty "foo(bar".data .unexpectedToken (by decide)⟩

/-- Hypothesis shape for the C2 chain lemma: from parser state `s`, at
precedence level `level` with fuel as consumed by `parseLevelLoop`, the
input offers exactly the operator-separated right operands `es` — each
introduced by the level's operator token and parsed by
`parse_expression_at_level` at the next-inner `level + 1` — ending in state
`s3` whose next token is not the level's operator. -/
inductive ChainSteps : Nat → Nat → PState → List ExprOrFact → PState → Prop
  | nil (fuel level : Nat) (s : PState)
      (h : pTake [opTokenAt level] s = (.ok none, s)) :
      ChainSteps (fuel + 1) level s [] s
  | cons (fuel level : Nat) (s s1 s2 s3 : PState) (tok : Token) (e : ExprOrFact)
      (es : List ExprOrFact)
      (h1 : pTake [opTokenAt level] s = (.ok (some tok), s1))
      (h2 : parse_expression_at_level fuel (level + 1) s1 = (.ok e, s2))
      (h3 : ChainSteps fuel level s2 es s3) :
      ChainSteps (fuel + 1) level s (e :: es) s3

/-- C2: at every precedence level the left operand and every right operand
are parsed at the next-inner level and combined left-associatively: when
the input offers the right operands `es` (each parsed at `level + 1`), the
level's operator loop returns the left fold of the level's binary
combination over `es` — so chains of one operator left-associate — and,
concretely, `a(), b(); c().` parses as `And(a(), Or(b(), c()))`, i.e. the
Or of the semicolon level binds tighter than the comma level's And. -/
theorem c2_precedence_left_assoc :
    (∀ (fuel level : Nat) (s s3 : PState) (es : List ExprOrFact) (left : ExprOrFact),
        ChainSteps fuel level s es s3 →
        parseLevelLoop fuel level left s = (.ok (es.foldl (combineAt level) left), s3))
    ∧ (parse_query 30 ⟨Registry.empty, "a(), b(); c().".data⟩).1
        = .ok (.expr (.fact ⟨"a", TermType.Rule⟩ [])
            (.expr (.fact ⟨"b", TermType.Rule⟩ []) (.fact ⟨"c", TermType.Rule⟩ []) .Or)
            .And) := by
  refine ⟨?_, by decide⟩
  intro fuel level s s3 es left h
  induction h generalizing left with
  | nil fuel level s hnil =>
    simp only [parseLevelLoop, hnil, List.foldl_nil]
  | cons fuel level s s1 s2 s3 tok e es h1 h2 h3 ih =>
    simp only [parseLevelLoop, h1, h2, List.foldl_cons]
    exact ih (combineAt level left e)

def c2s0 : PState := ⟨⟨[], ["a", "b"], []⟩, ", b()".data⟩
def c2s1 : PState := ⟨⟨[], ["a", "b"], []⟩, " b()".data⟩
def c2s2 : PState := ⟨⟨[], ["a", "b"], []⟩, []⟩

theorem c2_witness :
    parseLevelLoop 22 0 (.fact ⟨"a", TermType.Rule⟩ []) c2s0
      = (.ok ([ExprOrFact.fact ⟨"b", TermType.Rule⟩ []].foldl (combineAt 0)
          (.fact ⟨"a", TermType.Rule⟩ [])), c2s2) :=
  c2_precedence_left_assoc.1 22 0 c2s0 c2s2 [.fact ⟨"b", TermType.Rule⟩ []]
    (.fact ⟨"a", TermType.Rule⟩ [])
    (ChainSteps.cons 21 0 c2s0 c2s1 c2s2 c2s2 ⟨",", TokenType.COMMA⟩
      (.fact ⟨"b", TermType.Rule⟩ []) [] (by decide) (by decide)
      (ChainSteps.nil 20 0 c2s2 (by decide)))

/-- Returns `true` iff a ground evaluation returned without raising. -/
def okB : Except Err Bool → Bool
  | .ok _ => true
  | .error _ => false

/-- Returns `true` iff a ground evaluation returned `True`. -/
def okTrue : Except Err Bool → Bool
  | .ok true => true
  | _ => false

/-- Spec-side description of the enumeration loop: when no candidate
raises, the loop with `needAllAnswers` collects the substitution of every
satisfying tuple in enumeration order; without it, it stops at the first
satisfying tuple and yields a single-element list (or the empty list when
no tuple satisfies). -/
theorem qvLoop_spec (evalGround : ExprOrFact → Except Err Bool) (f : ExprOrFact)
    (needsAll : Bool) (vars : List String) :
    ∀ (tups : List (List String)) (acc : List VarDict),
      (∀ t ∈ tups, okB (evalGround (f.replace (mkBinding vars t))) = true) →
      qvLoop evalGround f needsAll vars tups acc
        = .ok (if needsAll then
            acc ++ tups.filterMap (fun t =>
              if okTrue (evalGround (f.replace (mkBinding vars t))) then
                some (mkBinding vars t) else none)
          else
            match tups.find? (fun t =>
                okTrue (evalGround (f.replace (mkBinding vars t)))) with
            | some t => acc ++ [mkBinding vars t]
            | none => acc) := by
  intro tups
  induction tups with
  | nil =>
    intro acc _
    cases needsAll <;> simp [qvLoop]
  | cons t rest ih =>
    intro acc h
    have ht := h t (List.mem_cons_self t rest)
    have hrest : ∀ u ∈ rest, okB (evalGround (f.replace (mkBinding vars u))) = true :=
      fun u hu => h u (List.mem_cons_of_mem t hu)
    cases he : evalGround (f.replace (mkBinding vars t)) with
    | error e =>
      rw [he] at ht
      exact absurd ht (by simp [okB])
    | ok b =>
      cases b with
      | true =>
        cases needsAll with
        | true =>
          simp only [qvLoop, he, if_true]
          rw [ih _ hrest]
          simp [List.filterMap_cons, he, okTrue, List.append_assoc]
        | false =>
          simp only [qvLoop, he]
          simp [List.find?_cons, he, okTrue]
      | false =>
        simp only [qvLoop, he]
        rw [ih _ hrest]
        simp [List.filterMap_cons, List.find?_cons, he, okTrue]

theorem flatten_map_single (l : List String) :
    (l.map (fun x => ([[x]] : List (List String)))).flatten = l.map (fun y => [y]) := by
  induction l with
  | nil => rfl
  | cons a l ih => simp [ih]

/-- The enumeration order of `listProduct` is the product order with the
rightmost coordinate cycling fastest: extending the tuple length by one
appends each domain element to each shorter tuple, keeping the shorter
tuples' order as the outer order. -/
theorem listProduct_snoc (l : List String) (n : Nat) :
    listProduct l (n + 1)
      = ((listProduct l n).map (fun t => l.map (fun y => t ++ [y]))).flatten := by
  induction n with
  | zero => simp [listProduct, flatten_map_single]
  | succ n ih =>
    conv_lhs => rw [listProduct]
    conv_lhs => rw [ih]
    conv_rhs => rw [listProduct]
    simp only [List.map_flatten, List.map_map, List.flatten_flatten, Function.comp,
      List.cons_append]
    refine congrArg List.flatten (List.map_congr_left ?_)
    intro x _
    simp [Function.comp_def, List.map_map, List.map_flatten, List.flatten_flatten,
      List.cons_append]

/-- C3: for a query containing variables, `query_variable` enumerates every
tuple of interned atoms of length equal to the number of distinct variables
of the query (assuming the set-iteration order `env.ord` enumerates exactly
those names), in product order over the atoms' registration order with the
rightmost coordinate cycling fastest (the `listProduct` characterisation);
provided no candidate evaluation raises, with `needAllAnswers` every
satisfying tuple's substitution is collected in enumeration order, and
without it the first satisfying substitution alone is returned — the empty
list, not an error, when nothing satisfies. -/
theorem c3_query_variable_enum (env : Env) (fuel : Nat) (f : ExprOrFact) (needsAll : Bool)
    (hv : f.is_variable = true)
    (hord : (env.ord f).Perm f.varNamesDFS.dedup)
    (hok : ∀ tup ∈ listProduct env.atoms (env.ord f).length,
        okB (query_simple env fuel (f.replace (mkBinding (env.ord f) tup))) = true) :
    ((env.ord f).length = f.varNamesDFS.dedup.length)
    ∧ (∀ n : Nat, listProduct env.atoms (n + 1)
        = ((listProduct env.atoms n).map (fun t => env.atoms.map (fun y => t ++ [y]))).flatten)
    ∧ query_variable env (fuel + 1) f needsAll
        = .ok (if needsAll then
            (listProduct env.atoms (env.ord f).length).filterMap (fun t =>
              if okTrue (query_simple env fuel (f.replace (mkBinding (env.ord f) t))) then
                some (mkBinding (env.ord f) t) else none)
          else
            match (listProduct env.atoms (env.ord f).length).find? (fun t =>
                okTrue (query_simple env fuel (f.replace (mkBinding (env.ord f) t)))) with
            | some t => [mkBinding (env.ord f) t]
            | none => []) := by
  refine ⟨hord.length_eq, fun n => listProduct_snoc env.atoms n, ?_⟩
  simp only [query_variable, hv, if_true]
  rw [qvLoop_spec (fun e => query_simple env fuel e) f needsAll (env.ord f)
    (listProduct env.atoms (env.ord f).length) [] hok]
  cases needsAll with
  | true => simp
  | false =>
    simp only [Bool.false_eq_true, if_false]
    cases (listProduct env.atoms (env.ord f).length).find? (fun t =>
        okTrue (query_simple env fuel (f.replace (mkBinding (env.ord f) t)))) with
    | none => rfl
    | some t => simp

theorem c3_witness :
    ((ExprOrFact.fact parentT [tomT, varY]).is_variable = true)
    ∧ ((env1.ord (.fact parentT [tomT, varY])).length
        = (ExprOrFact.fact parentT [tomT, varY]).varNamesDFS.dedup.length)
    ∧ query_variable env1 (3 + 1) (.fact parentT [tomT, varY]) true
        = .ok [[("Y", bobT)]] := by
  refine ⟨by decide, ?_, ?_⟩
  · exact (c3_query_variable_enum env1 3 (.fact parentT [tomT, varY]) true
      (by decide) (by decide) (by decide)).1
  · exact (c3_query_variable_enum env1 3 (.fact parentT [tomT, varY]) true
      (by decide) (by decide) (by decide)).2.2

end Prolog
